import Mathlib

/-!
Verification of the lighten-blend compositing tool.

This file shallowly embeds the two compositing modules of the repository
(`lighten_blend_image.py` and `lighten_blend_video.py`) and proves, or
refutes, the frozen claims about them.

Modelling conventions:
* A decoded BGR frame (`numpy` array of shape `height × width × 3`,
  dtype uint8 widened to float32 for still accumulation) is a `Frame`:
  recorded dimensions plus the flat list of channel values, one `Nat`
  per byte, row-major, channels interleaved.
* `np.maximum(a, b, out=a)` is `merge_max`, the elementwise maximum.
* `cv2.resize` is an external library call; it is modelled by the
  executable nearest-neighbour `resize_nn` below, which is faithful to
  everything the repository relies on: the result has exactly the
  requested dimensions.  (The spec allows "nearest/bilinear resampling".)
* File-system and process effects (whether a path opens, whether ffmpeg
  is installed, whether the encoder exits 0, whether the final write
  succeeds) are modelled by explicit booleans/optional data carried by
  the source descriptions.
-/

/-- A decoded video/image frame: a `height × width × 3` BGR pixel grid,
stored as its flat byte list (`data`), together with the dimensions the
decoder reported for it (`frame.shape[1] = width`, `frame.shape[0] = height`). -/
structure Frame where
  width : Nat
  height : Nat
  data : List Nat
deriving Repr, DecidableEq

/-- `np.zeros((h, w, 3), dtype=...)`: the all-black frame used both to
initialise the still-image accumulator and as the defensive output when no
source contributes to a video frame index. -/
def black_frame (w h : Nat) : Frame :=
  { width := w, height := h, data := List.replicate (w * h * 3) 0 }

/-- `np.maximum(a, b, out=a)`: the elementwise per-channel maximum ("lighten
blend") of two frames.  The dimension fields follow the destination array `a`. -/
def merge_max (a b : Frame) : Frame :=
  { width := a.width, height := a.height, data := List.zipWith max a.data b.data }

/-- Model of the external `cv2.resize(frame, (w, h))` call: nearest-neighbour
resampling to the requested `w × h` size.  The repository only relies on the
result having exactly the requested dimensions. -/
def resize_nn (f : Frame) (w h : Nat) : Frame :=
  { width := w, height := h,
    data := (List.range h).flatMap fun y =>
      (List.range w).flatMap fun x =>
        (List.range 3).map fun c =>
          f.data.getD ((y * f.height / h) * f.width * 3 + (x * f.width / w) * 3 + c) 0 }

/-- The inline resolution reconciliation both modules perform before a merge:
`if frame.shape[1] != base_width or frame.shape[0] != base_height:
frame = cv2.resize(frame, (base_width, base_height))`. -/
def fit_frame (bw bh : Nat) (f : Frame) : Frame :=
  if f.width = bw ∧ f.height = bh then f else resize_nn f bw bh

/-- A frame whose recorded dimensions are the base resolution and whose flat
data really has `bw * bh * 3` entries (a well-formed decoded array). -/
def good_frame (bw bh : Nat) (f : Frame) : Prop :=
  f.width = bw ∧ f.height = bh ∧ f.data.length = bw * bh * 3

instance (bw bh : Nat) (f : Frame) : Decidable (good_frame bw bh f) := by
  unfold good_frame; infer_instance

/-- A decoded frame is well-formed when its flat data matches its own
recorded dimensions. -/
def Frame.wf (f : Frame) : Prop := f.data.length = f.width * f.height * 3

namespace LightenBlend

/- ### Elementwise-maximum algebra on flat data lists -/

theorem zipWith_max_comm (a b : List Nat) :
    List.zipWith max a b = List.zipWith max b a := by
  induction a generalizing b with
  | nil => cases b <;> rfl
  | cons x xs ih =>
    cases b with
    | nil => rfl
    | cons y ys => simp [List.zipWith, ih, Nat.max_comm]

theorem zipWith_max_assoc (a b c : List Nat) :
    List.zipWith max (List.zipWith max a b) c
      = List.zipWith max a (List.zipWith max b c) := by
  induction a generalizing b c with
  | nil => rfl
  | cons x xs ih =>
    cases b with
    | nil => rfl
    | cons y ys =>
      cases c with
      | nil => rfl
      | cons z zs => simp [List.zipWith, ih, Nat.max_assoc]

theorem zipWith_max_self (a : List Nat) : List.zipWith max a a = a := by
  induction a with
  | nil => rfl
  | cons x xs ih => simp [List.zipWith, ih]

theorem zipWith_max_zero_left (a : List Nat) :
    List.zipWith max (List.replicate a.length 0) a = a := by
  induction a with
  | nil => rfl
  | cons x xs ih => simp [List.replicate, List.zipWith, ih]

theorem zipWith_max_zero_right (a : List Nat) :
    List.zipWith max a (List.replicate a.length 0) = a := by
  rw [zipWith_max_comm]; exact zipWith_max_zero_left a

/- ### merge_max algebra -/

theorem merge_max_assoc (a b c : Frame) :
    merge_max (merge_max a b) c = merge_max a (merge_max b c) := by
  simp [merge_max, zipWith_max_assoc]

/-- Right-commutativity of the merge: the accumulator keeps its identity. -/
theorem merge_max_right_comm (a b c : Frame) :
    merge_max (merge_max a b) c = merge_max (merge_max a c) b := by
  simp only [merge_max]
  simp [zipWith_max_assoc, zipWith_max_comm b.data c.data]

theorem merge_max_self_absorb (a b : Frame) :
    merge_max (merge_max a b) b = merge_max a b := by
  simp [merge_max, zipWith_max_assoc, zipWith_max_self]

theorem merge_max_black_left (bw bh : Nat) (f : Frame) (hf : good_frame bw bh f) :
    merge_max (black_frame bw bh) f = f := by
  cases f with
  | mk fw fh fd =>
    obtain ⟨hw, hh, hl⟩ := hf
    subst hw hh
    simp only [merge_max, black_frame]
    rw [← hl, zipWith_max_zero_left]

theorem merge_max_black_right (bw bh : Nat) (f : Frame) (hf : good_frame bw bh f) :
    merge_max f (black_frame bw bh) = f := by
  cases f with
  | mk fw fh fd =>
    obtain ⟨hw, hh, hl⟩ := hf
    subst hw hh
    simp only [merge_max, black_frame]
    rw [← hl, zipWith_max_zero_right]

theorem good_frame_black (bw bh : Nat) : good_frame bw bh (black_frame bw bh) := by
  simp [good_frame, black_frame]

theorem good_frame_merge (bw bh : Nat) {a b : Frame}
    (ha : good_frame bw bh a) (hb : good_frame bw bh b) :
    good_frame bw bh (merge_max a b) := by
  obtain ⟨haw, hah, hal⟩ := ha
  obtain ⟨hbw, hbh, hbl⟩ := hb
  refine ⟨haw, hah, ?_⟩
  simp [merge_max, hal, hbl]

theorem resize_nn_length (f : Frame) (w h : Nat) :
    (resize_nn f w h).data.length = w * h * 3 := by
  simp only [resize_nn, List.length_flatMap, List.length_map, List.length_range,
    Function.comp_def]
  simp [List.map_const', List.sum_replicate, smul_eq_mul]
  ring

theorem good_frame_resize (f : Frame) (w h : Nat) :
    good_frame w h (resize_nn f w h) :=
  ⟨rfl, rfl, resize_nn_length f w h⟩

theorem good_frame_fit (bw bh : Nat) {f : Frame} (hf : f.wf) :
    good_frame bw bh (fit_frame bw bh f) := by
  unfold fit_frame
  split
  · next hdim =>
    exact ⟨hdim.1, hdim.2, by rw [hf, hdim.1, hdim.2]⟩
  · exact good_frame_resize f bw bh

end LightenBlend

/-!
### Still-image compositor (`lighten_blend_image.py`)

A concrete source file is abstracted by what the decoders can obtain from
it: its lower-cased extension, the result of `cv2.imread` (`none` when the
file cannot be decoded as an image), and the behaviour of
`cv2.VideoCapture` on it (whether it opens, and the ordered list of frames
`cap.read()` can deliver).
-/

/-- `get_supported_extensions()`: the image-extension class. -/
def image_extensions : List String :=
  [".jpg", ".jpeg", ".png", ".bmp", ".tiff", ".tif"]

/-- `get_supported_extensions()`: the video-extension class. -/
def video_extensions : List String :=
  [".mp4", ".avi", ".mov", ".mkv", ".wmv", ".webm", ".flv", ".m4v", ".3gp"]

/-- A concrete file on disk, abstracted by what the decoders see in it. -/
structure SrcFile where
  /-- `Path(file).suffix.lower()` -/
  ext : String
  /-- result of `cv2.imread(file)`: `none` when the image decoder fails -/
  imageData : Option Frame
  /-- whether `cv2.VideoCapture(file).isOpened()` -/
  videoOpens : Bool
  /-- the ordered frames successive `cap.read()` calls deliver -/
  videoFrames : List Frame
deriving Repr, DecidableEq

/-- A path handed to `create_lighten_blend_image`: an existing file, an
existing directory (with the files its recursive listing yields, in sorted
order), or a path that exists as neither. -/
inductive PathEntry where
  | file (f : SrcFile)
  | dir (files : List SrcFile)
  | missing
deriving Repr, DecidableEq

/-- `collect_files_from_folder` on a directory: keep exactly the files whose
extension lies in the supported image or video classes. -/
def collect_files_from_folder (files : List SrcFile) : List SrcFile :=
  files.filter fun f => decide (f.ext ∈ image_extensions ++ video_extensions)

/-- The expansion loop of `create_lighten_blend_image`
(`for path in file_paths: if isdir: extend(collect…) elif isfile: append`).
Directories are filtered by extension, direct files are appended unfiltered,
missing paths are dropped. -/
def expand_all (paths : List PathEntry) : List SrcFile :=
  paths.foldl
    (fun acc p =>
      match p with
      | .dir fs => acc ++ collect_files_from_folder fs
      | .file f => acc ++ [f]
      | .missing => acc)
    []

/-- `get_frame_from_video(path, 0)`: the first frame a `VideoCapture` on the
file yields, or `none` when the capture does not open or has no frame. -/
def get_frame_from_video (f : SrcFile) : Option Frame :=
  if f.videoOpens then f.videoFrames[0]? else none

/-- Resolution-defining first decode of `create_lighten_blend_image`:
image extensions go through `cv2.imread`, everything else through
`get_frame_from_video`. -/
def first_frame_of (f : SrcFile) : Option Frame :=
  if f.ext ∈ image_extensions then f.imageData else get_frame_from_video f

/-- One iteration of the merge loop of `create_lighten_blend_image`: an
image-extension file contributes its decoded frame (if any), any other file
is opened as a video and contributes every frame of its timeline; each
contribution is resolution-reconciled and folded into the accumulator with
`np.maximum`.  Undecodable files leave the accumulator unchanged. -/
def process_file (bw bh : Nat) (acc : Frame) (f : SrcFile) : Frame :=
  if f.ext ∈ image_extensions then
    match f.imageData with
    | some fr => merge_max acc (fit_frame bw bh fr)
    | none => acc
  else
    if f.videoOpens then
      (f.videoFrames.map (fit_frame bw bh)).foldl merge_max acc
    else acc

/-- `np.clip(composite, 0, 255).astype(np.uint8)`: the final clamp-and-narrow
(the lower clamp is vacuous on natural-number channel values). -/
def clip_frame (f : Frame) : Frame :=
  { width := f.width, height := f.height, data := f.data.map fun v => min v 255 }

/-- `create_lighten_blend_image(file_paths, output_path)`.  `write_ok` models
whether the final `cv2.imwrite` succeeds.  The second component is the
content of the written output image (`none` when nothing is written). -/
def create_lighten_blend_image (paths : List PathEntry) (write_ok : Bool) :
    Bool × Option Frame :=
  if paths = [] then (false, none)
  else
    match expand_all paths with
    | [] => (false, none)
    | first :: rest =>
      match first_frame_of first with
      | none => (false, none)
      | some f0 =>
        let bw := f0.width
        let bh := f0.height
        let composite := (first :: rest).foldl (process_file bw bh) (black_frame bw bh)
        if write_ok then (true, some (clip_frame composite)) else (false, none)

namespace LightenBlend

/- ### Folded merges: accumulator algebra -/

theorem foldl_merge_swap (t : List Frame) :
    ∀ (c x : Frame),
      merge_max (t.foldl merge_max c) x = t.foldl merge_max (merge_max c x) := by
  induction t with
  | nil => intro c x; rfl
  | cons y t ih =>
    intro c x
    simp only [List.foldl_cons]
    rw [ih (merge_max c y) x, merge_max_right_comm]

theorem foldl_merge_dup (t : List Frame) :
    ∀ c : Frame, t.foldl merge_max (t.foldl merge_max c) = t.foldl merge_max c := by
  induction t with
  | nil => intro c; rfl
  | cons x t ih =>
    intro c
    simp only [List.foldl_cons]
    rw [foldl_merge_swap, merge_max_self_absorb, ih]

/-- The frames one source file contributes inside the merge loop of
`create_lighten_blend_image`, in merge order. -/
def file_contribs (bw bh : Nat) (f : SrcFile) : List Frame :=
  if f.ext ∈ image_extensions then
    match f.imageData with
    | some fr => [fit_frame bw bh fr]
    | none => []
  else
    if f.videoOpens then f.videoFrames.map (fit_frame bw bh) else []

theorem process_file_eq_contribs (bw bh : Nat) (acc : Frame) (f : SrcFile) :
    process_file bw bh acc f = (file_contribs bw bh f).foldl merge_max acc := by
  unfold process_file file_contribs
  split
  · cases f.imageData <;> simp
  · split <;> simp

end LightenBlend

/-!
### Frame-rate normalization (`create_lighten_blend_video`, lines 123–126)
-/

/-- The frame-rate normalization performed before configuring the encoder:
`if base_fps <= 0 or base_fps > 120: base_fps = 30.0`.  Frame rates are
modelled as exact rationals (the comparisons at these thresholds are exact
in the source's floating point as well). -/
def normalize_fps (fps : Rat) : Rat :=
  if fps ≤ 0 ∨ 120 < fps then 30 else fps

/-- Claim C7: a probed frame rate that is non-positive or greater than 120
is replaced by the fixed default 30 before configuring the encoder, and a
frame rate in (0, 120] is used unchanged. -/
theorem c7_fps_normalization (fps : Rat) :
    (fps ≤ 0 ∨ 120 < fps → normalize_fps fps = 30) ∧
    (0 < fps → fps ≤ 120 → normalize_fps fps = fps) := by
  constructor
  · intro h
    unfold normalize_fps
    rw [if_pos h]
  · intro h1 h2
    unfold normalize_fps
    rw [if_neg]
    push_neg
    exact ⟨h1, h2⟩

/-- Witness for C7 at the concrete rates 150 (normalized) and 24 (kept). -/
theorem c7_fps_normalization_witness :
    normalize_fps 150 = 30 ∧ normalize_fps 24 = 24 :=
  ⟨(c7_fps_normalization 150).1 (by norm_num),
   (c7_fps_normalization 24).2 (by norm_num) (by norm_num)⟩

/-- Claim C8: composing a source list containing the same single readable
source twice yields exactly the same result as composing it once — the
lighten-blend merge is idempotent. -/
theorem c8_duplicate_source (s : SrcFile) (write_ok : Bool)
    (hs : (first_frame_of s).isSome) :
    create_lighten_blend_image [.file s, .file s] write_ok =
      create_lighten_blend_image [.file s] write_ok := by
  obtain ⟨f0, hf0⟩ := Option.isSome_iff_exists.mp hs
  have h2 : expand_all [.file s, .file s] = [s, s] := rfl
  have h1 : expand_all [.file s] = [s] := rfl
  have hfold :
      process_file f0.width f0.height
          (process_file f0.width f0.height (black_frame f0.width f0.height) s) s =
        process_file f0.width f0.height (black_frame f0.width f0.height) s := by
    rw [LightenBlend.process_file_eq_contribs, LightenBlend.process_file_eq_contribs,
      LightenBlend.foldl_merge_dup]
  simp [create_lighten_blend_image, h1, h2, hf0, hfold]

/-- Witness for C8: a concrete 1×1 image source, duplicated. -/
theorem c8_duplicate_source_witness :
    create_lighten_blend_image
        [.file ⟨".png", some ⟨1, 1, [0, 0, 255]⟩, false, []⟩,
         .file ⟨".png", some ⟨1, 1, [0, 0, 255]⟩, false, []⟩] true =
      create_lighten_blend_image
        [.file ⟨".png", some ⟨1, 1, [0, 0, 255]⟩, false, []⟩] true :=
  c8_duplicate_source ⟨".png", some ⟨1, 1, [0, 0, 255]⟩, false, []⟩ true (by decide)

/-- Claim C10: extension-based filtering applies only to paths expanded from
directories.  A direct file path is accepted whatever its extension, and a
direct file whose extension is outside the image class is processed by the
video branch (opened as a video) — even when the extension is outside the
supported video class, in which case the same file inside a directory would
have been filtered out. -/
theorem c10_extension_filtering (f : SrcFile)
    (h1 : f.ext ∉ image_extensions) (h2 : f.ext ∉ video_extensions) :
    expand_all [.file f] = [f] ∧
    expand_all [.dir [f]] = [] ∧
    ∀ bw bh acc, process_file bw bh acc f =
      (if f.videoOpens then (f.videoFrames.map (fit_frame bw bh)).foldl merge_max acc
       else acc) := by
  refine ⟨rfl, ?_, ?_⟩
  · simp [expand_all, collect_files_from_folder, h1, h2]
  · intro bw bh acc
    simp [process_file, h1]

/-- Witness for C10: a `.txt` file with one video frame behind it. -/
theorem c10_extension_filtering_witness :
    expand_all [.file ⟨".txt", none, true, [⟨1, 1, [9, 9, 9]⟩]⟩]
        = [⟨".txt", none, true, [⟨1, 1, [9, 9, 9]⟩]⟩] ∧
    expand_all [.dir [⟨".txt", none, true, [⟨1, 1, [9, 9, 9]⟩]⟩]] = [] ∧
    process_file 1 1 (black_frame 1 1) ⟨".txt", none, true, [⟨1, 1, [9, 9, 9]⟩]⟩ =
      (if (true : Bool) then
        ([(⟨1, 1, [9, 9, 9]⟩ : Frame)].map (fit_frame 1 1)).foldl merge_max (black_frame 1 1)
       else black_frame 1 1) := by
  have h := c10_extension_filtering ⟨".txt", none, true, [⟨1, 1, [9, 9, 9]⟩]⟩
    (by decide) (by decide)
  exact ⟨h.1, h.2.1, h.2.2 1 1 (black_frame 1 1)⟩

/-- Counterexample to claim C4 as stated: a source list holding one
unreadable-but-existing path and two valid images does NOT always succeed —
when the unreadable path is the first entry of the expanded list, the
resolution-defining first decode fails and the whole request returns false,
even though two consumable sources remain (second conjunct: the same two
valid images alone succeed). -/
theorem c4_counterexample :
    (create_lighten_blend_image
      [.file ⟨".png", none, false, []⟩,
       .file ⟨".png", some ⟨1, 1, [0, 0, 255]⟩, false, []⟩,
       .file ⟨".png", some ⟨1, 1, [0, 255, 0]⟩, false, []⟩] true).1 = false
    ∧ (create_lighten_blend_image
      [.file ⟨".png", some ⟨1, 1, [0, 0, 255]⟩, false, []⟩,
       .file ⟨".png", some ⟨1, 1, [0, 255, 0]⟩, false, []⟩] true).1 = true := by
  constructor <;> rfl

namespace LightenBlend

theorem expand_all_foldl (ps : List PathEntry) :
    ∀ acc : List SrcFile,
      ps.foldl (fun acc p =>
        match p with
        | .dir fs => acc ++ collect_files_from_folder fs
        | .file f => acc ++ [f]
        | .missing => acc) acc
      = acc ++ expand_all ps := by
  induction ps with
  | nil =>
    intro acc
    simp [expand_all]
  | cons p ps ih =>
    intro acc
    rw [List.foldl_cons, ih]
    have hexp : expand_all (p :: ps) = (match p with
        | .dir fs => collect_files_from_folder fs
        | .file f => [f]
        | .missing => []) ++ expand_all ps := by
      unfold expand_all
      rw [List.foldl_cons, ih]
      cases p <;> simp <;> rfl
    rw [hexp]
    cases p <;> simp

theorem expand_all_append (xs ys : List PathEntry) :
    expand_all (xs ++ ys) = expand_all xs ++ expand_all ys := by
  unfold expand_all
  rw [List.foldl_append, expand_all_foldl ys]
  rfl

theorem expand_all_file_cons (c : SrcFile) (ps : List PathEntry) :
    expand_all (.file c :: ps) = c :: expand_all ps := by
  unfold expand_all
  rw [List.foldl_cons, expand_all_foldl ps]
  rfl

theorem expand_all_missing_cons (ps : List PathEntry) :
    expand_all (.missing :: ps) = expand_all ps := by
  unfold expand_all
  rw [List.foldl_cons, expand_all_foldl ps]

/-- A source file the compositor can get nothing from: with an image
extension its `cv2.imread` fails, with any other extension its
`cv2.VideoCapture` does not open. -/
theorem process_file_unreadable (bw bh : Nat) (acc : Frame) (c : SrcFile)
    (hc : (c.ext ∈ image_extensions ∧ c.imageData = none) ∨
          (c.ext ∉ image_extensions ∧ c.videoOpens = false)) :
    process_file bw bh acc c = acc := by
  unfold process_file
  rcases hc with ⟨h1, h2⟩ | ⟨h1, h2⟩
  · rw [if_pos h1, h2]
  · rw [if_neg h1, if_neg (by simp [h2])]

theorem foldl_process_insert (bw bh : Nat) (A B : List SrcFile) (c : SrcFile)
    (hc : (c.ext ∈ image_extensions ∧ c.imageData = none) ∨
          (c.ext ∉ image_extensions ∧ c.videoOpens = false)) (acc : Frame) :
    (A ++ c :: B).foldl (process_file bw bh) acc
      = (A ++ B).foldl (process_file bw bh) acc := by
  rw [List.foldl_append, List.foldl_cons,
    process_file_unreadable bw bh _ c hc, ← List.foldl_append]

end LightenBlend

/-- Claim C4, amended: a source that is unreadable (an existing file that
neither decodes as an image nor opens as a video, for its branch) is
skipped wherever it occurs after the first expanded file, leaving the
result unchanged, and a nonexistent path is pruned wherever it occurs; the
operation succeeds if and only if the expanded file list is nonempty, its
FIRST file yields a decodable first frame, and the final write succeeds —
so it fails only when zero sources survive expansion, when the first
expanded file cannot be decoded, or when the write fails.  In particular a
list with one unreadable path and two valid images succeeds, with the
composite of the two valid images, whenever the unreadable path is not the
first expanded file. -/
theorem c4_unreadable_skipped_amended (write_ok : Bool) :
    (∀ (ps1 ps2 : List PathEntry) (c : SrcFile),
      ((c.ext ∈ image_extensions ∧ c.imageData = none) ∨
        (c.ext ∉ image_extensions ∧ c.videoOpens = false)) →
      expand_all ps1 ≠ [] →
      create_lighten_blend_image (ps1 ++ .file c :: ps2) write_ok =
        create_lighten_blend_image (ps1 ++ ps2) write_ok)
    ∧ (∀ ps1 ps2 : List PathEntry,
      create_lighten_blend_image (ps1 ++ .missing :: ps2) write_ok =
        create_lighten_blend_image (ps1 ++ ps2) write_ok)
    ∧ (∀ paths : List PathEntry,
      (create_lighten_blend_image paths write_ok).1 = true ↔
        ∃ (first : SrcFile) (rest : List SrcFile) (f0 : Frame),
          expand_all paths = first :: rest ∧
          first_frame_of first = some f0 ∧ write_ok = true) := by
  refine ⟨?_, ?_, ?_⟩
  · intro ps1 ps2 c hc h1
    obtain ⟨e0, es, hps1⟩ : ∃ e0 es, expand_all ps1 = e0 :: es := by
      cases hx : expand_all ps1 with
      | nil => exact absurd hx h1
      | cons e0 es => exact ⟨e0, es, rfl⟩
    have hps1ne : ps1 ≠ [] := by
      intro hcontra
      rw [hcontra] at hps1
      cases hps1
    have hL : expand_all (ps1 ++ .file c :: ps2)
        = e0 :: (es ++ c :: expand_all ps2) := by
      rw [LightenBlend.expand_all_append, LightenBlend.expand_all_file_cons, hps1]
      rfl
    have hR : expand_all (ps1 ++ ps2) = e0 :: (es ++ expand_all ps2) := by
      rw [LightenBlend.expand_all_append, hps1]
      rfl
    unfold create_lighten_blend_image
    rw [if_neg (by simp), if_neg (by simp [hps1ne])]
    rw [hL, hR]
    cases hff : first_frame_of e0 with
    | none => simp only [hff]
    | some f0 =>
      simp only [hff]
      have hfold := LightenBlend.foldl_process_insert f0.width f0.height
        (e0 :: es) (expand_all ps2) c hc (black_frame f0.width f0.height)
      simp only [List.cons_append] at hfold
      rw [hfold]
  · intro ps1 ps2
    by_cases hnil : ps1 ++ ps2 = []
    · obtain ⟨h1, h2⟩ := List.append_eq_nil.mp hnil
      subst h1
      subst h2
      rfl
    · have hexp : expand_all (ps1 ++ .missing :: ps2) = expand_all (ps1 ++ ps2) := by
        rw [LightenBlend.expand_all_append, LightenBlend.expand_all_missing_cons,
          LightenBlend.expand_all_append]
      unfold create_lighten_blend_image
      rw [if_neg (by simp), if_neg hnil, hexp]
  · intro paths
    by_cases hp : paths = []
    · subst hp
      constructor
      · intro h
        exact absurd h (by rw [create_lighten_blend_image]; simp)
      · rintro ⟨first, rest, f0, heq, -, -⟩
        cases heq
    · unfold create_lighten_blend_image
      rw [if_neg hp]
      cases hexp : expand_all paths with
      | nil =>
        constructor
        · intro h
          exact absurd h (by simp)
        · rintro ⟨first, rest, f0, heq, -, -⟩
          cases heq
      | cons first rest =>
        cases hff : first_frame_of first with
        | none =>
          constructor
          · intro h
            exact absurd h (by simp [hff])
          · rintro ⟨first', rest', f0, heq, hsome, -⟩
            injection heq with heq1 heq2
            subst heq1
            rw [hff] at hsome
            cases hsome
        | some f0 =>
          cases write_ok with
          | false =>
            constructor
            · intro h
              exact absurd h (by simp [hff])
            · rintro ⟨first', rest', f0', -, -, hcontra⟩
              cases hcontra
          | true =>
            constructor
            · intro _
              exact ⟨first, rest, f0, rfl, hff, rfl⟩
            · intro _
              simp [hff]

/-- Witness for the amended C4: an unreadable non-image file in LAST
position after two valid images is dropped without changing the output,
a nonexistent path in the middle is pruned, and the two-image run itself
succeeds. -/
theorem c4_unreadable_skipped_amended_witness :
    (create_lighten_blend_image
        [.file ⟨".png", some ⟨1, 1, [0, 0, 255]⟩, false, []⟩,
         .file ⟨".png", some ⟨1, 1, [0, 255, 0]⟩, false, []⟩,
         .file ⟨".mp4", none, false, []⟩] true =
      create_lighten_blend_image
        [.file ⟨".png", some ⟨1, 1, [0, 0, 255]⟩, false, []⟩,
         .file ⟨".png", some ⟨1, 1, [0, 255, 0]⟩, false, []⟩] true)
    ∧ (create_lighten_blend_image
        [.file ⟨".png", some ⟨1, 1, [0, 0, 255]⟩, false, []⟩,
         .missing,
         .file ⟨".png", some ⟨1, 1, [0, 255, 0]⟩, false, []⟩] true =
      create_lighten_blend_image
        [.file ⟨".png", some ⟨1, 1, [0, 0, 255]⟩, false, []⟩,
         .file ⟨".png", some ⟨1, 1, [0, 255, 0]⟩, false, []⟩] true)
    ∧ (create_lighten_blend_image
        [.file ⟨".png", some ⟨1, 1, [0, 0, 255]⟩, false, []⟩,
         .file ⟨".png", some ⟨1, 1, [0, 255, 0]⟩, false, []⟩] true).1 = true := by
  have h := c4_unreadable_skipped_amended true
  refine ⟨?_, ?_, ?_⟩
  · exact h.1
      [.file ⟨".png", some ⟨1, 1, [0, 0, 255]⟩, false, []⟩,
       .file ⟨".png", some ⟨1, 1, [0, 255, 0]⟩, false, []⟩] []
      ⟨".mp4", none, false, []⟩ (by decide) (by decide)
  · exact h.2.1
      [.file ⟨".png", some ⟨1, 1, [0, 0, 255]⟩, false, []⟩]
      [.file ⟨".png", some ⟨1, 1, [0, 255, 0]⟩, false, []⟩]
  · exact (h.2.2
      [.file ⟨".png", some ⟨1, 1, [0, 0, 255]⟩, false, []⟩,
       .file ⟨".png", some ⟨1, 1, [0, 255, 0]⟩, false, []⟩]).mpr
      ⟨⟨".png", some ⟨1, 1, [0, 0, 255]⟩, false, []⟩,
       [⟨".png", some ⟨1, 1, [0, 255, 0]⟩, false, []⟩],
       ⟨1, 1, [0, 0, 255]⟩, by decide, by decide, rfl⟩

/-!
### Video compositor (`lighten_blend_video.py`)

A video source is abstracted by what `cv2.VideoCapture` sees in the file:
whether it opens, the container metadata (`fps`, `frame_count`, `width`,
`height` — what `get_video_info` returns), and the ordered list of frames
successive `cap.read()` calls can actually deliver.  The ffmpeg encoder
subprocess is abstracted by two booleans (whether the executable can be
located/spawned, and whether the process finally exits 0) plus the ordered
list of `(frame_idx, frame)` writes made to its stdin, which is the pass's
output content.
-/

/-- A probed video source (`get_video_info` result plus decode behaviour). -/
structure VideoSource where
  /-- `cap.isOpened()` -/
  opens : Bool
  /-- `CAP_PROP_FPS` -/
  fps : Rat
  /-- `int(CAP_PROP_FRAME_COUNT)` — container metadata, trusted by the loop guard -/
  frame_count : Nat
  /-- `int(CAP_PROP_FRAME_WIDTH)` -/
  width : Nat
  /-- `int(CAP_PROP_FRAME_HEIGHT)` -/
  height : Nat
  /-- the frames successive `cap.read()` calls actually deliver, in order -/
  frames : List Frame
deriving Repr, DecidableEq

/-- `MAX_MEMORY_BYTES = 1 * 1024 * 1024 * 1024`. -/
def MAX_MEMORY_BYTES : Int := 1073741824

/-- A live `VideoCapture` inside the streaming loop: its metadata frame
count (the loop guard), its decodable frames, and the read cursor. -/
structure CapState where
  frame_count : Nat
  frames : List Frame
  cursor : Nat
deriving Repr, DecidableEq

/-- `ret, frame = cap.read()`: deliver the frame under the cursor and
advance, or report failure (`ret == False`) once the decoder is exhausted. -/
def cap_read (c : CapState) : Option Frame × CapState :=
  match c.frames[c.cursor]? with
  | some f => (some f, { c with cursor := c.cursor + 1 })
  | none => (none, c)

/-- The `composite_frame` update: the first contribution becomes the
accumulator, later ones are folded in with `np.maximum`. -/
def merge_into (acc : Option Frame) (f : Frame) : Frame :=
  match acc with
  | none => f
  | some comp => merge_max comp f

/-- The inner loop of `_create_lighten_blend_video_streaming` over `caps`
for one output frame index `i`: each capture whose metadata frame count
exceeds `i` is read once, the delivered frame (if any) is
resolution-reconciled and folded into the accumulator.  Returns the final
accumulator and the advanced capture states. -/
def composite_step (bw bh i : Nat) :
    List CapState → Option Frame → Option Frame × List CapState
  | [], acc => (acc, [])
  | c :: rest, acc =>
    if i < c.frame_count then
      match cap_read c with
      | (some f, c') =>
        let out := composite_step bw bh i rest (some (merge_into acc (fit_frame bw bh f)))
        (out.1, c' :: out.2)
      | (none, c') =>
        let out := composite_step bw bh i rest acc
        (out.1, c' :: out.2)
    else
      let out := composite_step bw bh i rest acc
      (out.1, c :: out.2)

/-- The outer loop of `_create_lighten_blend_video_streaming`
(`for frame_idx in range(max_frames)`), started at index `i` with `n`
indices left: emits one `(frame_idx, composite)` write to the encoder per
index (a black frame when no source contributed), threading the capture
states. -/
def stream_frames (bw bh : Nat) : Nat → Nat → List CapState → List (Nat × Frame)
  | _, 0, _ => []
  | i, n + 1, caps =>
    let out := composite_step bw bh i caps none
    (i, match out.1 with | none => black_frame bw bh | some f => f)
      :: stream_frames bw bh (i + 1) n out.2

/-- Opening the captures at the head of the streaming pass: sources whose
`VideoCapture` opens become live captures with cursor 0. -/
def open_caps (infos : List VideoSource) : List CapState :=
  (infos.filter fun s => s.opens).map fun s => ⟨s.frame_count, s.frames, 0⟩

/-- `_create_lighten_blend_video_streaming(video_infos, output_path, …)`.
`ffmpeg_ok` models whether the ffmpeg executable can be located and
spawned; `enc_ok` whether the encoder process finally exits 0.  The second
component is the ordered list of `(frame_idx, frame)` writes the pass makes
to the encoder's stdin — the content of the produced output file. -/
def create_lighten_blend_video_streaming (infos : List VideoSource)
    (bw bh mf : Nat) (ffmpeg_ok enc_ok : Bool) : Bool × List (Nat × Frame) :=
  match open_caps infos with
  | [] => (false, [])
  | c :: cs =>
    if ffmpeg_ok then (enc_ok, stream_frames bw bh 0 mf (c :: cs))
    else (false, [])

/-- `max(info['frame_count'] for info in video_infos)` (folded with base 0;
identical to the Python `max` on the nonempty lists it is applied to). -/
def max_frames_of (infos : List VideoSource) : Nat :=
  (infos.map fun s => s.frame_count).foldl max 0

/-- `max_concurrent_videos = max(1, (MAX_MEMORY_BYTES - frame_size * 2) //
frame_size)` with `frame_size = base_width * base_height * 3`; Python's
floor division `//` is `Int.fdiv`. -/
def max_concurrent_videos (bw bh : Nat) : Int :=
  max 1 (Int.fdiv (MAX_MEMORY_BYTES - (bw * bh * 3 : Nat) * 2) (bw * bh * 3 : Nat))

/-- The probe filter of `create_lighten_blend_video`: a source is kept when
`get_video_info` succeeds (the capture opens) and `info['frame_count'] > 0`. -/
def readable_source (s : VideoSource) : Bool :=
  s.opens && decide (0 < s.frame_count)

/-- The batch partition of `_create_lighten_blend_video_batched`:
`num_batches = ceil(len/bs)` consecutive slices `infos[b*bs : b*bs+bs]`. -/
def py_batches (bs : Nat) (infos : List VideoSource) : List (List VideoSource) :=
  (List.range ((infos.length + bs - 1) / bs)).map fun b => ((infos.drop (b * bs)).take bs)

/-- `get_video_info` on an intermediate batch output: the file holds
exactly the frames the batch pass wrote, at the base resolution and rate. -/
def probe_intermediate (bw bh : Nat) (fps : Rat) (writes : List (Nat × Frame)) :
    VideoSource :=
  { opens := true, fps := fps, frame_count := writes.length,
    width := bw, height := bh, frames := writes.map Prod.snd }

/-- `_create_lighten_blend_video_batched`: split into batches, run the
streaming pass once per batch into an intermediate file, then either
promote a single intermediate to the final output or run one more
streaming pass over the probed intermediates.  The returned writes are the
content of the FINAL output file (nothing is written there on failure). -/
def create_lighten_blend_video_batched (infos : List VideoSource)
    (bw bh : Nat) (fps : Rat) (mf bs : Nat) (ffmpeg_ok enc_ok : Bool) :
    Bool × List (Nat × Frame) :=
  let results := (py_batches bs infos).map fun batch =>
    create_lighten_blend_video_streaming batch bw bh mf ffmpeg_ok enc_ok
  if results.all (fun r => r.1) then
    if results.length = 1 then (true, (results.headD (false, [])).2)
    else
      let final_infos := results.map fun r => probe_intermediate bw bh fps r.2
      create_lighten_blend_video_streaming final_infos bw bh mf ffmpeg_ok enc_ok
  else (false, [])

/-- The output-format resolution of `create_lighten_blend_video`
(lines 117–126): base width/height and (pre-normalization) frame rate come
from the first source that survives the probe filter. -/
def video_output_config (sources : List VideoSource) : Option (Nat × Nat × Rat) :=
  match sources.filter readable_source with
  | [] => none
  | i0 :: _ => some (i0.width, i0.height, i0.fps)

/-- `create_lighten_blend_video(video_paths, output_path)`: probe, filter
readable sources, fix the output format from the first readable source,
compute the memory-bounded concurrency limit, and dispatch to the batched
or the streaming pass. -/
def create_lighten_blend_video (sources : List VideoSource)
    (ffmpeg_ok enc_ok : Bool) : Bool × List (Nat × Frame) :=
  if sources = [] then (false, [])
  else
    match sources.filter readable_source with
    | [] => (false, [])
    | i0 :: rest =>
      let infos := i0 :: rest
      let mf := max_frames_of infos
      let fps := normalize_fps i0.fps
      let mc := max_concurrent_videos i0.width i0.height
      if (infos.length : Int) > mc then
        create_lighten_blend_video_batched infos i0.width i0.height fps mf
          mc.toNat ffmpeg_ok enc_ok
      else
        create_lighten_blend_video_streaming infos i0.width i0.height mf
          ffmpeg_ok enc_ok

namespace LightenBlend

theorem streaming_no_ffmpeg (infos : List VideoSource) (bw bh mf : Nat) (enc_ok : Bool) :
    create_lighten_blend_video_streaming infos bw bh mf false enc_ok = (false, []) := by
  unfold create_lighten_blend_video_streaming
  cases open_caps infos <;> simp

theorem batched_no_ffmpeg (infos : List VideoSource) (bw bh : Nat) (fps : Rat)
    (mf bs : Nat) (enc_ok : Bool) :
    create_lighten_blend_video_batched infos bw bh fps mf bs false enc_ok = (false, []) := by
  unfold create_lighten_blend_video_batched
  simp only [streaming_no_ffmpeg]
  cases py_batches bs infos with
  | nil => simp [streaming_no_ffmpeg]
  | cons b bs' => simp

end LightenBlend

/-- Claim C5: when the encoder executable cannot be located or spawned, the
video request fails immediately — it returns false, writes no frame to the
encoder, and the output file receives no content, on every code path. -/
theorem c5_encoder_unavailable (sources : List VideoSource) (enc_ok : Bool) :
    create_lighten_blend_video sources false enc_ok = (false, []) := by
  unfold create_lighten_blend_video
  split
  · rfl
  · split
    · rfl
    · dsimp only
      split
      · exact LightenBlend.batched_no_ffmpeg ..
      · exact LightenBlend.streaming_no_ffmpeg ..

/-- Claim C9: the output resolution and the pre-normalization frame rate
are exactly the `width`/`height`/`fps` of the first source surviving the
probe filter; any two source lists with the same first readable source get
the same output format. -/
theorem c9_first_readable_fixes_format (sources : List VideoSource) :
    video_output_config sources =
      (sources.filter readable_source).head?.map
        (fun s => (s.width, s.height, s.fps)) ∧
    ∀ t : List VideoSource,
      (t.filter readable_source).head? = (sources.filter readable_source).head? →
        video_output_config t = video_output_config sources := by
  have key : ∀ u : List VideoSource,
      video_output_config u =
        (u.filter readable_source).head?.map (fun s => (s.width, s.height, s.fps)) := by
    intro u
    unfold video_output_config
    cases u.filter readable_source <;> simp
  exact ⟨key sources, fun t ht => by rw [key, key, ht]⟩

/-- Witness for C9: two lists sharing the same first readable source but
differing in later sources (different resolution, rate, readability). -/
theorem c9_first_readable_fixes_format_witness :
    video_output_config
        [⟨true, 30, 5, 640, 480, []⟩, ⟨true, 60, 7, 1920, 1080, []⟩] =
      video_output_config
        [⟨true, 30, 5, 640, 480, []⟩, ⟨false, 24, 9, 100, 100, []⟩] :=
  (c9_first_readable_fixes_format
      [⟨true, 30, 5, 640, 480, []⟩, ⟨false, 24, 9, 100, 100, []⟩]).2
    [⟨true, 30, 5, 640, 480, []⟩, ⟨true, 60, 7, 1920, 1080, []⟩] (by decide)

/-- Counterexample to claim C6 as stated: for a 16384×16384 source the
computed limit is clamped to `max(1, …) = 1`, yet `(1 + 2)` frames of
`16384 * 16384 * 3` bytes do NOT fit in the 1 GiB budget — so the limit is
not "the largest n such that (n + 2) frames fit". -/
theorem c6_counterexample :
    ¬ ((max_concurrent_videos 16384 16384 + 2) * ((16384 * 16384 * 3 : Nat) : Int)
        ≤ MAX_MEMORY_BYTES) := by decide

/-- Claim C6, amended: whenever three frames fit in the budget (so the
`max(1, …)` clamp is inactive), the concurrency limit is the largest `n`
with `(n + 2) * frame_size ≤ 2^30`; and the batched path is taken exactly
when the number of readable sources exceeds the limit. -/
theorem c6_concurrency_limit_amended (bw bh : Nat)
    (h0 : 0 < ((bw * bh * 3 : Nat) : Int))
    (h3 : 3 * ((bw * bh * 3 : Nat) : Int) ≤ MAX_MEMORY_BYTES) :
    ((max_concurrent_videos bw bh + 2) * ((bw * bh * 3 : Nat) : Int)
        ≤ MAX_MEMORY_BYTES
      ∧ ∀ m : Int,
          (m + 2) * ((bw * bh * 3 : Nat) : Int) ≤ MAX_MEMORY_BYTES →
          m ≤ max_concurrent_videos bw bh)
    ∧ ∀ (sources : List VideoSource) (i0 : VideoSource) (rest : List VideoSource),
        sources.filter readable_source = i0 :: rest →
        i0.width = bw → i0.height = bh →
        ∀ ffmpeg_ok enc_ok : Bool,
          create_lighten_blend_video sources ffmpeg_ok enc_ok =
            (if ((i0 :: rest).length : Int) > max_concurrent_videos bw bh then
              create_lighten_blend_video_batched (i0 :: rest) bw bh
                (normalize_fps i0.fps) (max_frames_of (i0 :: rest))
                (max_concurrent_videos bw bh).toNat ffmpeg_ok enc_ok
             else
              create_lighten_blend_video_streaming (i0 :: rest) bw bh
                (max_frames_of (i0 :: rest)) ffmpeg_ok enc_ok) := by
  have hfd : Int.fdiv (MAX_MEMORY_BYTES - ((bw * bh * 3 : Nat) : Int) * 2)
      ((bw * bh * 3 : Nat) : Int)
      = (MAX_MEMORY_BYTES - ((bw * bh * 3 : Nat) : Int) * 2) / ((bw * bh * 3 : Nat) : Int) :=
    Int.fdiv_eq_ediv _ (le_of_lt h0)
  have hge1 : 1 ≤ (MAX_MEMORY_BYTES - ((bw * bh * 3 : Nat) : Int) * 2)
      / ((bw * bh * 3 : Nat) : Int) := by
    rw [Int.le_ediv_iff_mul_le h0]
    linarith
  have hmc : max_concurrent_videos bw bh
      = (MAX_MEMORY_BYTES - ((bw * bh * 3 : Nat) : Int) * 2) / ((bw * bh * 3 : Nat) : Int) := by
    unfold max_concurrent_videos
    rw [hfd, max_eq_right hge1]
  refine ⟨⟨?_, ?_⟩, ?_⟩
  · rw [hmc]
    have hq := Int.ediv_mul_le (MAX_MEMORY_BYTES - ((bw * bh * 3 : Nat) : Int) * 2)
      (ne_of_gt h0)
    have hexp : ((MAX_MEMORY_BYTES - ((bw * bh * 3 : Nat) : Int) * 2)
          / ((bw * bh * 3 : Nat) : Int) + 2) * ((bw * bh * 3 : Nat) : Int)
        = (MAX_MEMORY_BYTES - ((bw * bh * 3 : Nat) : Int) * 2)
          / ((bw * bh * 3 : Nat) : Int) * ((bw * bh * 3 : Nat) : Int)
          + 2 * ((bw * bh * 3 : Nat) : Int) := by ring
    rw [hexp]
    linarith
  · intro m hm
    rw [hmc, Int.le_ediv_iff_mul_le h0]
    have hexp : (m + 2) * ((bw * bh * 3 : Nat) : Int)
        = m * ((bw * bh * 3 : Nat) : Int) + 2 * ((bw * bh * 3 : Nat) : Int) := by ring
    rw [hexp] at hm
    linarith
  · intro sources i0 rest hfilter hw hh ffmpeg_ok enc_ok
    have hne : sources ≠ [] := by
      intro h
      rw [h] at hfilter
      exact absurd hfilter (by simp)
    unfold create_lighten_blend_video
    rw [if_neg hne]
    simp only [hfilter, hw, hh]

/-- Witness for the amended C6 at 2×2 frames: the limit satisfies the
budget bound it is claimed to maximise. -/
theorem c6_concurrency_limit_amended_witness :
    (max_concurrent_videos 2 2 + 2) * ((2 * 2 * 3 : Nat) : Int) ≤ MAX_MEMORY_BYTES :=
  (c6_concurrency_limit_amended 2 2 (by decide) (by decide)).1.1

namespace LightenBlend

/-!
### Characterizing the streaming loop

The loop reads each capture sequentially, guarded by the metadata frame
count; the invariant below says that when the loop reaches output index
`i`, a capture's cursor equals the number of reads attempted so far (one
per index below both `i` and the metadata count), capped by the number of
frames the decoder can actually deliver.
-/

/-- A capture in the state the streaming loop has it in when reaching
output index `i` (cursor invariant). -/
def sync_cap (i : Nat) (c : CapState) : CapState :=
  ⟨c.frame_count, c.frames, min (min i c.frame_count) c.frames.length⟩

/-- The contribution of a capture at output index `i`: its `i`-th decoded
frame, resolution-reconciled, provided the metadata count exceeds `i` and
the decoder actually delivers the frame. -/
def contrib_at (bw bh i : Nat) (c : CapState) : Option Frame :=
  if i < c.frame_count then (c.frames[i]?).map (fit_frame bw bh) else none

/-- Folding a list of contributions into the optional accumulator. -/
def acc_fold (l : List Frame) (acc : Option Frame) : Option Frame :=
  l.foldl (fun a f => some (merge_into a f)) acc

/-- The frame the streaming loop emits at output index `i` from captures
started in state `cs`. -/
def frame_at (bw bh : Nat) (cs : List CapState) (i : Nat) : Frame :=
  match acc_fold (cs.filterMap (contrib_at bw bh i)) none with
  | none => black_frame bw bh
  | some f => f

theorem cap_read_sync (i : Nat) (c : CapState) (hi : i < c.frame_count) :
    cap_read (sync_cap i c) = (c.frames[i]?, sync_cap (i + 1) c) := by
  unfold cap_read sync_cap
  by_cases hl : i < c.frames.length
  · have h1 : min (min i c.frame_count) c.frames.length = i := by omega
    have h2 : min (min (i + 1) c.frame_count) c.frames.length = i + 1 := by omega
    simp only [h1, h2]
    cases hfe : c.frames[i]? with
    | some f => simp
    | none =>
      rw [List.getElem?_eq_none_iff] at hfe
      omega
  · have h1 : min (min i c.frame_count) c.frames.length = c.frames.length := by omega
    have h2 : min (min (i + 1) c.frame_count) c.frames.length = c.frames.length := by
      omega
    simp only [h1, h2]
    have hn1 : c.frames[c.frames.length]? = none := List.getElem?_eq_none (le_refl _)
    have hn2 : c.frames[i]? = none := List.getElem?_eq_none (by omega)
    simp only [hn1, hn2]

theorem sync_cap_stable (i : Nat) (c : CapState) (hi : ¬ i < c.frame_count) :
    sync_cap (i + 1) c = sync_cap i c := by
  unfold sync_cap
  congr 1
  omega

theorem composite_step_sync (bw bh i : Nat) (cs : List CapState) :
    ∀ acc : Option Frame,
      composite_step bw bh i (cs.map (sync_cap i)) acc =
        (acc_fold (cs.filterMap (contrib_at bw bh i)) acc, cs.map (sync_cap (i + 1))) := by
  induction cs with
  | nil => intro acc; rfl
  | cons c cs ih =>
    intro acc
    simp only [List.map_cons, composite_step]
    by_cases hi : i < c.frame_count
    · rw [if_pos (show i < (sync_cap i c).frame_count from hi)]
      rw [cap_read_sync i c hi]
      cases hfe : c.frames[i]? with
      | some f =>
        simp only [ih]
        simp [contrib_at, hi, hfe, acc_fold]
      | none =>
        simp only [ih]
        simp [contrib_at, hi, hfe, acc_fold]
    · rw [if_neg (show ¬ i < (sync_cap i c).frame_count from hi)]
      simp only [ih]
      rw [sync_cap_stable i c hi]
      simp [contrib_at, hi]

theorem stream_frames_sync (bw bh : Nat) (n : Nat) :
    ∀ (i : Nat) (cs : List CapState),
      stream_frames bw bh i n (cs.map (sync_cap i)) =
        (List.range' i n).map fun j => (j, frame_at bw bh cs j) := by
  induction n with
  | zero => intro i cs; rfl
  | succ n ih =>
    intro i cs
    rw [List.range'_succ]
    simp only [List.map_cons, stream_frames]
    rw [composite_step_sync]
    rw [ih (i + 1) cs]
    rfl

theorem open_caps_sync_zero (infos : List VideoSource) :
    (open_caps infos).map (sync_cap 0) = open_caps infos := by
  unfold open_caps sync_cap
  rw [List.map_map]
  apply List.map_congr_left
  intro s _
  simp

/-- The full streaming pass, characterized: with a located encoder and at
least one opened capture, it reports the encoder's exit status and writes
the per-index composites for indices `0, …, mf - 1`, in order. -/
theorem streaming_writes (infos : List VideoSource) (bw bh mf : Nat) (enc_ok : Bool)
    (hne : open_caps infos ≠ []) :
    create_lighten_blend_video_streaming infos bw bh mf true enc_ok =
      (enc_ok, (List.range' 0 mf).map
        fun j => (j, frame_at bw bh (open_caps infos) j)) := by
  unfold create_lighten_blend_video_streaming
  cases hoc : open_caps infos with
  | nil => exact absurd hoc hne
  | cons c cs =>
    have hsync : stream_frames bw bh 0 mf (c :: cs) =
        (List.range' 0 mf).map fun j => (j, frame_at bw bh (c :: cs) j) := by
      have h0 : (c :: cs).map (sync_cap 0) = c :: cs := by
        rw [← hoc]; exact open_caps_sync_zero infos
      rw [← h0, stream_frames_sync]
      have h0' : (c :: cs).map (sync_cap 0) = c :: cs := by
        rw [← hoc]; exact open_caps_sync_zero infos
      rw [h0']
    simp [hsync]

end LightenBlend

/-- Claim C1: with at least one readable (opened) source and a located
encoder, the streaming pass writes to the encoder exactly
`max_frames = max(frame_count over the sources)` frames, with output
indices exactly `0, 1, …, max_frames - 1` in strictly increasing order. -/
theorem c1_streaming_frame_schedule (infos : List VideoSource) (bw bh : Nat)
    (enc_ok : Bool) (h : ∃ s ∈ infos, s.opens = true) :
    ((create_lighten_blend_video_streaming infos bw bh (max_frames_of infos)
        true enc_ok).2).length = max_frames_of infos ∧
    ((create_lighten_blend_video_streaming infos bw bh (max_frames_of infos)
        true enc_ok).2).map Prod.fst = List.range (max_frames_of infos) ∧
    List.Sorted (· < ·)
      (((create_lighten_blend_video_streaming infos bw bh (max_frames_of infos)
        true enc_ok).2).map Prod.fst) := by
  have hne : open_caps infos ≠ [] := by
    obtain ⟨s, hs, hopen⟩ := h
    exact List.ne_nil_of_mem
      (List.mem_map_of_mem _ (List.mem_filter.mpr ⟨hs, hopen⟩))
  rw [LightenBlend.streaming_writes infos bw bh (max_frames_of infos) enc_ok hne]
  refine ⟨?_, ?_, ?_⟩
  · simp
  · rw [List.map_map, List.range_eq_range']
    simp [Function.comp_def]
  · rw [List.map_map]
    have h2 : (List.range' 0 (max_frames_of infos)).map
        (Prod.fst ∘ fun j => (j, LightenBlend.frame_at bw bh (open_caps infos) j)) =
        List.range (max_frames_of infos) := by
      rw [List.range_eq_range']
      simp [Function.comp_def]
    rw [h2]
    exact List.sorted_lt_range _

/-- Witness for C1: two opened 1×1 sources of lengths 1 and 2. -/
theorem c1_streaming_frame_schedule_witness :
    (∃ s ∈ [(⟨true, 30, 1, 1, 1, [⟨1, 1, [5, 5, 5]⟩]⟩ : VideoSource),
            ⟨true, 30, 2, 1, 1, [⟨1, 1, [7, 7, 7]⟩, ⟨1, 1, [8, 8, 8]⟩]⟩], s.opens = true) ∧
    ((create_lighten_blend_video_streaming
        [⟨true, 30, 1, 1, 1, [⟨1, 1, [5, 5, 5]⟩]⟩,
         ⟨true, 30, 2, 1, 1, [⟨1, 1, [7, 7, 7]⟩, ⟨1, 1, [8, 8, 8]⟩]⟩] 1 1
        (max_frames_of
          [⟨true, 30, 1, 1, 1, [⟨1, 1, [5, 5, 5]⟩]⟩,
           ⟨true, 30, 2, 1, 1, [⟨1, 1, [7, 7, 7]⟩, ⟨1, 1, [8, 8, 8]⟩]⟩])
        true true).2).map Prod.fst =
      List.range (max_frames_of
        [⟨true, 30, 1, 1, 1, [⟨1, 1, [5, 5, 5]⟩]⟩,
         ⟨true, 30, 2, 1, 1, [⟨1, 1, [7, 7, 7]⟩, ⟨1, 1, [8, 8, 8]⟩]⟩]) := by
  constructor
  · exact ⟨_, List.mem_cons_self _ _, rfl⟩
  · exact (c1_streaming_frame_schedule
      [⟨true, 30, 1, 1, 1, [⟨1, 1, [5, 5, 5]⟩]⟩,
       ⟨true, 30, 2, 1, 1, [⟨1, 1, [7, 7, 7]⟩, ⟨1, 1, [8, 8, 8]⟩]⟩] 1 1 true
      ⟨_, List.mem_cons_self _ _, rfl⟩).2.1

instance (f : Frame) : Decidable f.wf := by
  unfold Frame.wf; infer_instance

/-- The composite the spec describes for one output index: the per-channel
maximum fold of the contributing frames (black when none contribute). -/
def fold_composite (bw bh : Nat) (l : List Frame) : Frame :=
  l.foldl merge_max (black_frame bw bh)

/-- The frames read at output index `i`, in source order: one frame from
exactly those sources whose metadata frame count exceeds `i`, each
resolution-reconciled. -/
def active_source_frames (bw bh : Nat) (infos : List VideoSource) (i : Nat) :
    List Frame :=
  (infos.filter fun s => decide (i < s.frame_count)).map
    fun s => fit_frame bw bh (s.frames.getD i (black_frame bw bh))

namespace LightenBlend

theorem acc_fold_some (l : List Frame) :
    ∀ c : Frame, acc_fold l (some c) = some (l.foldl merge_max c) := by
  induction l with
  | nil => intro c; rfl
  | cons f t ih =>
    intro c
    simp only [acc_fold, List.foldl_cons] at *
    rw [show merge_into (some c) f = merge_max c f from rfl]
    exact ih (merge_max c f)

theorem opt_result_eq_fold (bw bh : Nat) (l : List Frame)
    (hg : ∀ f ∈ l, good_frame bw bh f) :
    (match acc_fold l none with
      | none => black_frame bw bh
      | some f => f) = fold_composite bw bh l := by
  cases l with
  | nil => rfl
  | cons f t =>
    have hf : good_frame bw bh f := hg f (List.mem_cons_self f t)
    have h1 : acc_fold (f :: t) none = acc_fold t (some f) := rfl
    rw [h1, acc_fold_some]
    unfold fold_composite
    rw [List.foldl_cons, merge_max_black_left bw bh f hf]

theorem open_caps_all (infos : List VideoSource)
    (hopen : ∀ s ∈ infos, s.opens = true) :
    open_caps infos = infos.map fun s => ⟨s.frame_count, s.frames, 0⟩ := by
  unfold open_caps
  rw [List.filter_eq_self.mpr hopen]

theorem contribs_eq_active (bw bh i : Nat) (infos : List VideoSource)
    (hlen : ∀ s ∈ infos, s.frame_count ≤ s.frames.length) :
    (infos.map fun s => (⟨s.frame_count, s.frames, 0⟩ : CapState)).filterMap
        (contrib_at bw bh i) = active_source_frames bw bh infos i := by
  induction infos with
  | nil => rfl
  | cons s rest ih =>
    have hs := hlen s (List.mem_cons_self s rest)
    have hrest : ∀ s' ∈ rest, s'.frame_count ≤ s'.frames.length :=
      fun s' h' => hlen s' (List.mem_cons_of_mem _ h')
    simp only [List.map_cons, List.filterMap_cons]
    by_cases hi : i < s.frame_count
    · have hil : i < s.frames.length := lt_of_lt_of_le hi hs
      simp [contrib_at, hi, List.getElem?_eq_getElem hil, active_source_frames,
        ih hrest, List.getD_eq_getElem?_getD]
    · simp [contrib_at, hi, active_source_frames, ih hrest]

theorem active_good (bw bh i : Nat) (infos : List VideoSource)
    (hlen : ∀ s ∈ infos, s.frame_count ≤ s.frames.length)
    (hwf : ∀ s ∈ infos, ∀ f ∈ s.frames, f.wf) :
    ∀ g ∈ active_source_frames bw bh infos i, good_frame bw bh g := by
  intro g hg
  unfold active_source_frames at hg
  obtain ⟨s, hsf, rfl⟩ := List.mem_map.mp hg
  obtain ⟨hsm, hdec⟩ := List.mem_filter.mp hsf
  have hi : i < s.frame_count := of_decide_eq_true hdec
  have hil : i < s.frames.length := lt_of_lt_of_le hi (hlen s hsm)
  apply good_frame_fit
  have hmem : s.frames.getD i (black_frame bw bh) ∈ s.frames := by
    rw [List.getD_eq_getElem?_getD, List.getElem?_eq_getElem hil]
    exact List.getElem_mem hil
  exact hwf s hsm _ hmem

end LightenBlend

/-- Claim C2: at every output index `i` of the streaming pass, the emitted
frame is the per-channel-maximum fold of exactly the frames read at index
`i` from the sources whose frame count exceeds `i` (each
resolution-reconciled); sources whose length is at most `i` contribute
nothing at that index. -/
theorem c2_per_index_composite (infos : List VideoSource) (bw bh mf i : Nat)
    (enc_ok : Bool)
    (hne : infos ≠ [])
    (hopen : ∀ s ∈ infos, s.opens = true)
    (hlen : ∀ s ∈ infos, s.frame_count ≤ s.frames.length)
    (hwf : ∀ s ∈ infos, ∀ f ∈ s.frames, f.wf)
    (hi : i < mf) :
    ((create_lighten_blend_video_streaming infos bw bh mf true enc_ok).2)[i]? =
      some (i, fold_composite bw bh (active_source_frames bw bh infos i)) := by
  have hocne : open_caps infos ≠ [] := by
    cases infos with
    | nil => exact absurd rfl hne
    | cons s rest =>
      exact List.ne_nil_of_mem (List.mem_map_of_mem _
        (List.mem_filter.mpr ⟨List.mem_cons_self s rest,
          hopen s (List.mem_cons_self s rest)⟩))
  rw [LightenBlend.streaming_writes infos bw bh mf enc_ok hocne]
  rw [List.getElem?_map, List.getElem?_range' 0 1 hi]
  simp only [Nat.zero_add, Nat.one_mul, Option.map_some']
  have hcaps : open_caps infos = infos.map fun s => ⟨s.frame_count, s.frames, 0⟩ :=
    LightenBlend.open_caps_all infos hopen
  rw [hcaps]
  unfold LightenBlend.frame_at
  rw [LightenBlend.contribs_eq_active bw bh i infos hlen]
  rw [LightenBlend.opt_result_eq_fold bw bh _
    (LightenBlend.active_good bw bh i infos hlen hwf)]

/-- Witness for C2 at index 1 of a 2-frame run: only the longer source is
still active there. -/
theorem c2_per_index_composite_witness :
    ((create_lighten_blend_video_streaming
        [⟨true, 30, 1, 1, 1, [⟨1, 1, [5, 5, 5]⟩]⟩,
         ⟨true, 30, 2, 1, 1, [⟨1, 1, [7, 7, 7]⟩, ⟨1, 1, [8, 8, 8]⟩]⟩] 1 1 2
        true true).2)[1]? =
      some (1, fold_composite 1 1 (active_source_frames 1 1
        [⟨true, 30, 1, 1, 1, [⟨1, 1, [5, 5, 5]⟩]⟩,
         ⟨true, 30, 2, 1, 1, [⟨1, 1, [7, 7, 7]⟩, ⟨1, 1, [8, 8, 8]⟩]⟩] 1)) :=
  c2_per_index_composite
    [⟨true, 30, 1, 1, 1, [⟨1, 1, [5, 5, 5]⟩]⟩,
     ⟨true, 30, 2, 1, 1, [⟨1, 1, [7, 7, 7]⟩, ⟨1, 1, [8, 8, 8]⟩]⟩] 1 1 2 1 true
    (by decide) (by decide) (by decide) (by decide) (by decide)

namespace LightenBlend

/-- Recursive form of the batch partition: repeatedly slice off the first
`bs` sources (the `infos[start:end]` loop of the batched pass, head-first). -/
def chunks_of (bs : Nat) (l : List VideoSource) : List (List VideoSource) :=
  if h : l = [] ∨ bs = 0 then [] else l.take bs :: chunks_of bs (l.drop bs)
termination_by l.length
decreasing_by
  push_neg at h
  simp only [List.length_drop]
  have h1 : 0 < l.length := List.length_pos.mpr h.1
  have h2 : 0 < bs := Nat.pos_of_ne_zero h.2
  omega

theorem py_batches_nil (bs : Nat) (hbs : 0 < bs) : py_batches bs [] = [] := by
  unfold py_batches
  have h0 : ((List.nil : List VideoSource).length + bs - 1) / bs = 0 := by
    simp only [List.length_nil, Nat.zero_add]
    exact Nat.div_eq_of_lt (by omega)
  rw [h0]
  rfl

theorem py_batches_cons (bs : Nat) (hbs : 0 < bs) (l : List VideoSource)
    (hl : l ≠ []) :
    py_batches bs l = l.take bs :: py_batches bs (l.drop bs) := by
  have hlen : 0 < l.length := List.length_pos.mpr hl
  by_cases hble : l.length ≤ bs
  · have hdrop : l.drop bs = [] := List.drop_eq_nil_of_le hble
    rw [hdrop, py_batches_nil bs hbs]
    unfold py_batches
    have hnum : (l.length + bs - 1) / bs = 1 :=
      Nat.div_eq_of_lt_le (by omega) (by omega)
    rw [hnum, List.range_succ, List.range_zero]
    simp
  · push_neg at hble
    unfold py_batches
    have key : (l.length + bs - 1) / bs = ((l.drop bs).length + bs - 1) / bs + 1 := by
      rw [List.length_drop]
      have hsplit : l.length + bs - 1 = (l.length - bs + bs - 1) + bs := by omega
      rw [hsplit, Nat.add_div_right _ hbs]
    rw [key, List.range_succ_eq_map]
    simp only [List.map_cons, List.map_map]
    congr 1
    · simp
    · apply List.map_congr_left
      intro b _
      simp only [Function.comp_apply]
      rw [List.drop_drop]
      rw [Nat.succ_mul, Nat.add_comm (b * bs) bs]

theorem py_batches_eq_chunks_of (bs : Nat) (hbs : 0 < bs) (l : List VideoSource) :
    py_batches bs l = chunks_of bs l := by
  have main : ∀ (n : Nat) (l : List VideoSource), l.length ≤ n →
      py_batches bs l = chunks_of bs l := by
    intro n
    induction n with
    | zero =>
      intro l hlen
      have hnil : l = [] := List.eq_nil_of_length_eq_zero (Nat.le_zero.mp hlen)
      subst hnil
      rw [py_batches_nil bs hbs, chunks_of]
      simp
    | succ n ih =>
      intro l hlen
      by_cases hl : l = []
      · subst hl
        rw [py_batches_nil bs hbs, chunks_of]
        simp
      · rw [py_batches_cons bs hbs l hl, chunks_of,
          dif_neg (by push_neg; exact ⟨hl, Nat.pos_iff_ne_zero.mp hbs⟩)]
        congr 1
        apply ih
        simp only [List.length_drop]
        have hpos := List.length_pos.mpr hl
        omega
  exact main l.length l (le_refl _)

theorem chunks_of_flatten (bs : Nat) (hbs : 0 < bs) (l : List VideoSource) :
    (chunks_of bs l).flatten = l := by
  have main : ∀ (n : Nat) (l : List VideoSource), l.length ≤ n →
      (chunks_of bs l).flatten = l := by
    intro n
    induction n with
    | zero =>
      intro l hlen
      have hnil : l = [] := List.eq_nil_of_length_eq_zero (Nat.le_zero.mp hlen)
      subst hnil
      rw [chunks_of]
      simp
    | succ n ih =>
      intro l hlen
      by_cases hl : l = []
      · subst hl
        rw [chunks_of]
        simp
      · rw [chunks_of, dif_neg (by push_neg; exact ⟨hl, Nat.pos_iff_ne_zero.mp hbs⟩),
          List.flatten_cons]
        rw [ih (l.drop bs) (by
          simp only [List.length_drop]
          have hpos := List.length_pos.mpr hl
          omega)]
        exact List.take_append_drop bs l
  exact main l.length l (le_refl _)

theorem chunks_of_ne_nil (bs : Nat) (hbs : 0 < bs) (l : List VideoSource) :
    ∀ L ∈ chunks_of bs l, L ≠ [] := by
  have main : ∀ (n : Nat) (l : List VideoSource), l.length ≤ n →
      ∀ L ∈ chunks_of bs l, L ≠ [] := by
    intro n
    induction n with
    | zero =>
      intro l hlen L hL
      have hnil : l = [] := List.eq_nil_of_length_eq_zero (Nat.le_zero.mp hlen)
      subst hnil
      rw [chunks_of] at hL
      simp at hL
    | succ n ih =>
      intro l hlen L hL
      by_cases hl : l = []
      · subst hl
        rw [chunks_of] at hL
        simp at hL
      · have hcond : ¬(l = [] ∨ bs = 0) := by
          push_neg
          exact ⟨hl, Nat.pos_iff_ne_zero.mp hbs⟩
        rw [chunks_of, dif_neg hcond] at hL
        rcases List.mem_cons.mp hL with h | h
        · subst h
          intro htake
          rcases List.take_eq_nil_iff.mp htake with h0 | h0
          · omega
          · exact hl h0
        · exact ih (l.drop bs) (by
            simp only [List.length_drop]
            have hpos := List.length_pos.mpr hl
            omega) L h
  exact main l.length l (le_refl _)

theorem chunks_of_nonempty (bs : Nat) (hbs : 0 < bs) (l : List VideoSource)
    (hl : l ≠ []) : chunks_of bs l ≠ [] := by
  rw [chunks_of, dif_neg (by push_neg; exact ⟨hl, Nat.pos_iff_ne_zero.mp hbs⟩)]
  simp

end LightenBlend

namespace LightenBlend

theorem foldl_merge_good (bw bh : Nat) (l : List Frame) :
    ∀ c : Frame, good_frame bw bh c → (∀ f ∈ l, good_frame bw bh f) →
      good_frame bw bh (l.foldl merge_max c) := by
  induction l with
  | nil => intro c hc _; exact hc
  | cons f t ih =>
    intro c hc hl
    rw [List.foldl_cons]
    exact ih (merge_max c f)
      (good_frame_merge bw bh hc (hl f (List.mem_cons_self f t)))
      (fun g hg => hl g (List.mem_cons_of_mem f hg))

theorem fold_composite_good (bw bh : Nat) (l : List Frame)
    (hl : ∀ f ∈ l, good_frame bw bh f) :
    good_frame bw bh (fold_composite bw bh l) :=
  foldl_merge_good bw bh l (black_frame bw bh) (good_frame_black bw bh) hl

theorem foldl_eq_merge_fold (bw bh : Nat) (l : List Frame) :
    ∀ c : Frame, good_frame bw bh c → (∀ f ∈ l, good_frame bw bh f) →
      l.foldl merge_max c = merge_max c (fold_composite bw bh l) := by
  induction l with
  | nil =>
    intro c hc _
    exact (merge_max_black_right bw bh c hc).symm
  | cons f t ih =>
    intro c hc hl
    have hf : good_frame bw bh f := hl f (List.mem_cons_self f t)
    have ht : ∀ g ∈ t, good_frame bw bh g :=
      fun g hg => hl g (List.mem_cons_of_mem f hg)
    simp only [List.foldl_cons]
    rw [ih (merge_max c f) (good_frame_merge bw bh hc hf) ht]
    have hrhs : fold_composite bw bh (f :: t) = merge_max f (fold_composite bw bh t) := by
      unfold fold_composite
      rw [List.foldl_cons, merge_max_black_left bw bh f hf]
      exact ih f hf ht
    rw [hrhs, merge_max_assoc]

theorem fold_cons_good (bw bh : Nat) (x : Frame) (xs : List Frame)
    (hx : good_frame bw bh x) (hxs : ∀ y ∈ xs, good_frame bw bh y) :
    fold_composite bw bh (x :: xs) = merge_max x (fold_composite bw bh xs) := by
  unfold fold_composite
  rw [List.foldl_cons, merge_max_black_left bw bh x hx]
  exact foldl_eq_merge_fold bw bh xs x hx hxs

theorem fold_append_good (bw bh : Nat) (A B : List Frame)
    (hA : ∀ f ∈ A, good_frame bw bh f) (hB : ∀ f ∈ B, good_frame bw bh f) :
    fold_composite bw bh (A ++ B)
      = merge_max (fold_composite bw bh A) (fold_composite bw bh B) := by
  unfold fold_composite
  rw [List.foldl_append]
  exact foldl_eq_merge_fold bw bh B _ (fold_composite_good bw bh A hA) hB

theorem fold_flatten_good (bw bh : Nat) (Ls : List (List Frame))
    (h : ∀ L ∈ Ls, ∀ f ∈ L, good_frame bw bh f) :
    fold_composite bw bh (Ls.map (fold_composite bw bh))
      = fold_composite bw bh Ls.flatten := by
  induction Ls with
  | nil => rfl
  | cons L Ls ih =>
    have hL : ∀ f ∈ L, good_frame bw bh f := h L (List.mem_cons_self L Ls)
    have hLs : ∀ L' ∈ Ls, ∀ f ∈ L', good_frame bw bh f :=
      fun L' hL' => h L' (List.mem_cons_of_mem L hL')
    have hflat : ∀ f ∈ Ls.flatten, good_frame bw bh f := by
      intro f hf
      obtain ⟨l, hl, hfl⟩ := List.mem_flatten.mp hf
      exact hLs l hl f hfl
    simp only [List.map_cons, List.flatten_cons]
    rw [fold_cons_good bw bh _ _ (fold_composite_good bw bh L hL)
      (by
        intro y hy
        obtain ⟨L', hL', rfl⟩ := List.mem_map.mp hy
        exact fold_composite_good bw bh L' (hLs L' hL'))]
    rw [ih hLs, fold_append_good bw bh L Ls.flatten hL hflat]

theorem contrib_good (bw bh i : Nat) (cs : List CapState)
    (hc : ∀ c ∈ cs, ∀ f ∈ c.frames, f.wf) :
    ∀ g ∈ cs.filterMap (contrib_at bw bh i), good_frame bw bh g := by
  intro g hg
  obtain ⟨c, hcm, hco⟩ := List.mem_filterMap.mp hg
  unfold contrib_at at hco
  split at hco
  · obtain ⟨raw, hraw, rfl⟩ := Option.map_eq_some'.mp hco
    exact good_frame_fit bw bh (hc c hcm raw (List.getElem?_mem hraw))
  · exact absurd hco (by simp)

theorem acc_fold_good (bw bh : Nat) (l : List Frame) :
    ∀ (acc : Option Frame) (f : Frame),
      (∀ g ∈ l, good_frame bw bh g) →
      (∀ a, acc = some a → good_frame bw bh a) →
      acc_fold l acc = some f → good_frame bw bh f := by
  induction l with
  | nil =>
    intro acc f _ hacc h
    exact hacc f h
  | cons g t ih =>
    intro acc f hl hacc h
    have hg : good_frame bw bh g := hl g (List.mem_cons_self g t)
    refine ih (some (merge_into acc g)) f
      (fun x hx => hl x (List.mem_cons_of_mem g hx)) ?_ h
    intro a ha
    injection ha with ha'
    subst ha'
    cases acc with
    | none => exact hg
    | some cacc => exact good_frame_merge bw bh (hacc cacc rfl) hg

theorem frame_at_good (bw bh : Nat) (cs : List CapState) (j : Nat)
    (hc : ∀ c ∈ cs, ∀ f ∈ c.frames, f.wf) :
    good_frame bw bh (frame_at bw bh cs j) := by
  unfold frame_at
  cases h : acc_fold (cs.filterMap (contrib_at bw bh j)) none with
  | none => exact good_frame_black bw bh
  | some f =>
    exact acc_fold_good bw bh _ none f (contrib_good bw bh j cs hc)
      (fun a ha => by cases ha) h

theorem frame_at_eq_fold (bw bh : Nat) (cs : List CapState) (j : Nat)
    (hc : ∀ c ∈ cs, ∀ f ∈ c.frames, f.wf) :
    frame_at bw bh cs j
      = fold_composite bw bh (cs.filterMap (contrib_at bw bh j)) := by
  unfold frame_at
  exact opt_result_eq_fold bw bh _ (contrib_good bw bh j cs hc)

theorem fit_frame_of_good (bw bh : Nat) {f : Frame} (hf : good_frame bw bh f) :
    fit_frame bw bh f = f := by
  unfold fit_frame
  rw [if_pos ⟨hf.1, hf.2.1⟩]

theorem good_frame_wf (bw bh : Nat) {f : Frame} (h : good_frame bw bh f) :
    f.wf := by
  obtain ⟨h1, h2, h3⟩ := h
  unfold Frame.wf
  rw [h1, h2]
  exact h3

theorem filterMap_all_some {β γ : Type} (f : β → Option γ) (g : β → γ) :
    ∀ l : List β, (∀ x ∈ l, f x = some (g x)) → l.filterMap f = l.map g := by
  intro l
  induction l with
  | nil => intro _; rfl
  | cons x t ih =>
    intro h
    rw [List.filterMap_cons, h x (List.mem_cons_self x t), List.map_cons,
      ih (fun y hy => h y (List.mem_cons_of_mem x hy))]

theorem filterMap_flatten {β γ : Type} (f : β → Option γ) (Ls : List (List β)) :
    Ls.flatten.filterMap f = (Ls.map (List.filterMap f)).flatten := by
  induction Ls with
  | nil => rfl
  | cons L Ls ih =>
    simp only [List.flatten_cons, List.filterMap_append, List.map_cons, ih]

end LightenBlend

namespace LightenBlend

/-- The capture states of a source list, all freshly opened (cursor 0). -/
def caps_of (L : List VideoSource) : List CapState :=
  L.map fun s => ⟨s.frame_count, s.frames, 0⟩

theorem stream_of_good_batch (L : List VideoSource) (bw bh mf : Nat)
    (hLne : L ≠ []) (hopenL : ∀ s ∈ L, s.opens = true) :
    create_lighten_blend_video_streaming L bw bh mf true true =
      (true, (List.range' 0 mf).map fun j => (j, frame_at bw bh (caps_of L) j)) := by
  have hoc : open_caps L = caps_of L := open_caps_all L hopenL
  have hocne : open_caps L ≠ [] := by
    rw [hoc]
    unfold caps_of
    intro hmapnil
    exact hLne (List.map_eq_nil_iff.mp hmapnil)
  rw [streaming_writes L bw bh mf true hocne, hoc]

theorem contrib_at_synth (bw bh mf j : Nat) (hj : j < mf) (F : Nat → Frame)
    (hg : good_frame bw bh (F j)) :
    contrib_at bw bh j ⟨mf, (List.range' 0 mf).map F, 0⟩ = some (F j) := by
  unfold contrib_at
  rw [if_pos hj]
  rw [List.getElem?_map, List.getElem?_range' 0 1 hj]
  simp only [Nat.zero_add, Nat.one_mul, Option.map_some']
  rw [fit_frame_of_good bw bh hg]

theorem fold_map_flatten (bw bh : Nat) {β : Type} (G : β → List Frame)
    (B : List β) (h : ∀ b ∈ B, ∀ f ∈ G b, good_frame bw bh f) :
    fold_composite bw bh (B.map fun b => fold_composite bw bh (G b))
      = fold_composite bw bh (B.map G).flatten := by
  have hmap : B.map (fun b => fold_composite bw bh (G b))
      = (B.map G).map (fold_composite bw bh) := by
    rw [List.map_map, Function.comp_def]
  rw [hmap, fold_flatten_good bw bh (B.map G) (by
    intro L hL
    obtain ⟨b, hb, rfl⟩ := List.mem_map.mp hL
    exact h b hb)]

theorem batched_index_eq (bw bh mf j : Nat) (fps : Rat) (hj : j < mf)
    (B : List (List VideoSource))
    (hwfB : ∀ L ∈ B, ∀ s ∈ L, ∀ f ∈ s.frames, f.wf) :
    frame_at bw bh (caps_of (B.map fun L =>
        probe_intermediate bw bh fps ((List.range' 0 mf).map fun i =>
          (i, frame_at bw bh (caps_of L) i)))) j
      = frame_at bw bh (caps_of B.flatten) j := by
  have hcaps_wf : ∀ L ∈ B, ∀ c ∈ caps_of L, ∀ f ∈ c.frames, f.wf := by
    intro L hL c hc f hf
    obtain ⟨s, hs, rfl⟩ := List.mem_map.mp hc
    exact hwfB L hL s hs f hf
  have hsynth : caps_of (B.map fun L =>
      probe_intermediate bw bh fps ((List.range' 0 mf).map fun i =>
        (i, frame_at bw bh (caps_of L) i)))
      = B.map fun L => (⟨mf, (List.range' 0 mf).map fun i =>
          frame_at bw bh (caps_of L) i, 0⟩ : CapState) := by
    unfold caps_of probe_intermediate
    rw [List.map_map]
    apply List.map_congr_left
    intro L _
    simp [Function.comp_def, List.map_map]
  rw [hsynth]
  have hFgood : ∀ L ∈ B, ∀ i : Nat,
      good_frame bw bh (frame_at bw bh (caps_of L) i) :=
    fun L hL i => frame_at_good bw bh (caps_of L) i (hcaps_wf L hL)
  have hsynth_wf : ∀ c ∈ (B.map fun L => (⟨mf, (List.range' 0 mf).map fun i =>
      frame_at bw bh (caps_of L) i, 0⟩ : CapState)), ∀ f ∈ c.frames, f.wf := by
    intro c hc f hf
    obtain ⟨L, hL, rfl⟩ := List.mem_map.mp hc
    obtain ⟨i, _, rfl⟩ := List.mem_map.mp hf
    exact good_frame_wf bw bh (hFgood L hL i)
  rw [frame_at_eq_fold bw bh _ j hsynth_wf]
  rw [List.filterMap_map]
  rw [filterMap_all_some _ (fun L => frame_at bw bh (caps_of L) j) B
    (by
      intro L hL
      simp only [Function.comp_apply]
      exact contrib_at_synth bw bh mf j hj _ (hFgood L hL j))]
  rw [List.map_congr_left
    (fun L hL => congrArg (fun x => x) (frame_at_eq_fold bw bh (caps_of L) j (hcaps_wf L hL)))]
  rw [fold_map_flatten bw bh (fun L => (caps_of L).filterMap (contrib_at bw bh j)) B
    (fun L hL => contrib_good bw bh j (caps_of L) (hcaps_wf L hL))]
  have hflat_wf : ∀ c ∈ caps_of B.flatten, ∀ f ∈ c.frames, f.wf := by
    intro c hc f hf
    obtain ⟨s, hs, rfl⟩ := List.mem_map.mp hc
    obtain ⟨L, hL, hsL⟩ := List.mem_flatten.mp hs
    exact hwfB L hL s hsL f hf
  rw [frame_at_eq_fold bw bh (caps_of B.flatten) j hflat_wf]
  congr 1
  unfold caps_of
  rw [List.map_flatten, filterMap_flatten, List.map_map]
  simp [Function.comp_def]

end LightenBlend

/-- Claim C3: with lossless intermediates, batched processing (consecutive
groups, one intermediate per group, plus a merge pass over the probed
intermediates — or promotion of a single intermediate) produces exactly the
same output writes as unbatched streaming of the same source set, for every
positive batch size. -/
theorem c3_batched_refines_streaming (infos : List VideoSource) (bw bh : Nat)
    (fps : Rat) (mf bs : Nat)
    (hbs : 0 < bs) (hne : infos ≠ [])
    (hopen : ∀ s ∈ infos, s.opens = true)
    (hwf : ∀ s ∈ infos, ∀ f ∈ s.frames, f.wf) :
    create_lighten_blend_video_batched infos bw bh fps mf bs true true =
      create_lighten_blend_video_streaming infos bw bh mf true true := by
  have hpb := LightenBlend.py_batches_eq_chunks_of bs hbs infos
  have hflat := LightenBlend.chunks_of_flatten bs hbs infos
  have hnn := LightenBlend.chunks_of_ne_nil bs hbs infos
  have hBne := LightenBlend.chunks_of_nonempty bs hbs infos hne
  have hmem : ∀ L ∈ LightenBlend.chunks_of bs infos, ∀ s ∈ L, s ∈ infos := by
    intro L hL s hs
    rw [← hflat]
    exact List.mem_flatten_of_mem hL hs
  have hopenB : ∀ L ∈ LightenBlend.chunks_of bs infos, ∀ s ∈ L, s.opens = true :=
    fun L hL s hs => hopen s (hmem L hL s hs)
  have hwfB : ∀ L ∈ LightenBlend.chunks_of bs infos, ∀ s ∈ L, ∀ f ∈ s.frames, f.wf :=
    fun L hL s hs => hwf s (hmem L hL s hs)
  unfold create_lighten_blend_video_batched
  dsimp only
  rw [hpb]
  rw [List.map_congr_left (fun L hL =>
    LightenBlend.stream_of_good_batch L bw bh mf (hnn L hL) (hopenB L hL))]
  have hall : ((LightenBlend.chunks_of bs infos).map fun L => ((true : Bool),
      (List.range' 0 mf).map fun j =>
        (j, LightenBlend.frame_at bw bh (LightenBlend.caps_of L) j))).all
      (fun r => r.1) = true := by
    rw [List.all_eq_true]
    intro x hx
    obtain ⟨L, hL, rfl⟩ := List.mem_map.mp hx
    rfl
  rw [if_pos hall]
  rw [LightenBlend.stream_of_good_batch infos bw bh mf hne hopen]
  by_cases hlen1 : (LightenBlend.chunks_of bs infos).length = 1
  · obtain ⟨L1, hB⟩ := List.length_eq_one.mp hlen1
    have hL1 : L1 = infos := by
      rw [hB] at hflat
      simpa using hflat
    rw [hB]
    simp [hL1]
  · rw [if_neg (by simpa using hlen1)]
    rw [List.map_map]
    have hfun : ((fun r : Bool × List (Nat × Frame) =>
        probe_intermediate bw bh fps r.2) ∘ fun L => ((true : Bool),
          (List.range' 0 mf).map fun j =>
            (j, LightenBlend.frame_at bw bh (LightenBlend.caps_of L) j)))
        = fun L => probe_intermediate bw bh fps ((List.range' 0 mf).map fun j =>
            (j, LightenBlend.frame_at bw bh (LightenBlend.caps_of L) j)) := by
      funext L
      rfl
    rw [hfun]
    have hfinne : (LightenBlend.chunks_of bs infos).map (fun L =>
        probe_intermediate bw bh fps ((List.range' 0 mf).map fun j =>
          (j, LightenBlend.frame_at bw bh (LightenBlend.caps_of L) j))) ≠ [] := by
      intro hcontra
      exact hBne (List.map_eq_nil_iff.mp hcontra)
    have hfopen : ∀ s ∈ (LightenBlend.chunks_of bs infos).map (fun L =>
        probe_intermediate bw bh fps ((List.range' 0 mf).map fun j =>
          (j, LightenBlend.frame_at bw bh (LightenBlend.caps_of L) j))),
        s.opens = true := by
      intro s hs
      obtain ⟨L, hL, rfl⟩ := List.mem_map.mp hs
      rfl
    rw [LightenBlend.stream_of_good_batch _ bw bh mf hfinne hfopen]
    congr 1
    apply List.map_congr_left
    intro j hj
    have hjlt : j < mf := by
      have := List.mem_range'_1.mp hj
      omega
    have hidx := LightenBlend.batched_index_eq bw bh mf j fps hjlt
      (LightenBlend.chunks_of bs infos) hwfB
    rw [hflat] at hidx
    rw [hidx]

/-- Witness for C3: two opened 1×1 single-frame sources, batch size 1
(two batches plus a merge pass) against direct streaming. -/
theorem c3_batched_refines_streaming_witness :
    create_lighten_blend_video_batched
        [⟨true, 30, 1, 1, 1, [⟨1, 1, [5, 5, 5]⟩]⟩,
         ⟨true, 30, 1, 1, 1, [⟨1, 1, [9, 9, 9]⟩]⟩] 1 1 30 1 1 true true =
      create_lighten_blend_video_streaming
        [⟨true, 30, 1, 1, 1, [⟨1, 1, [5, 5, 5]⟩]⟩,
         ⟨true, 30, 1, 1, 1, [⟨1, 1, [9, 9, 9]⟩]⟩] 1 1 1 true true :=
  c3_batched_refines_streaming
    [⟨true, 30, 1, 1, 1, [⟨1, 1, [5, 5, 5]⟩]⟩,
     ⟨true, 30, 1, 1, 1, [⟨1, 1, [9, 9, 9]⟩]⟩] 1 1 30 1 1
    (by decide) (by decide) (by decide) (by decide)
